import Mathlib

/-!
Verification of the Insight remote-synchronization core.

This file gives a shallow embedding of the sync/reconciliation logic of the
repository (the `CloudSyncManager` in `src/sync.js`, the `WebDAVSyncManager`
in `src/webdav-sync.js`, and the legacy single-file `CloudSyncManager`) and
proves the specification's claims about it.

Modelling conventions:
* JS objects become Lean structures; optional / possibly-absent fields become
  `Option` fields.  A JS array field is always truthy, so an array-valued
  field that is present is `some` even when empty; a string field equal to
  `""` is falsy in JS, which is modelled explicitly where the code branches
  on truthiness of a string.
* A JS `Map` (insertion ordered, `set` updates in place) is modelled as an
  association list with explicit `mapGet`/`mapSet` operations.
* `Array.prototype.sort` with the comparator `(a, b) => b.timestamp - a.timestamp`
  is modelled as a sort by the decidable relation `b.timestamp ≤ a.timestamp`
  (descending recency order).
* Byte sizes (`new Blob([JSON.stringify(x)]).size`) are abstracted as a size
  estimator parameter `size : Note → Nat` plus the fixed base overhead
  `base : Nat`, exactly the contract the specification gives the Sharder.
* Network and storage effects are modelled by passing the fetched remote data
  (or the thrown error) as an explicit `Except`/`Option` argument and by
  computing the value the code would write back to the local store.
-/

/-- A note record as produced by the app's storage layer: a stable string id,
content, derived tags, ISO `createdAt`/`updatedAt` strings and the numeric
creation timestamp (`Date.now()` milliseconds) that the sync code compares. -/
structure Note where
  id : String
  content : String := ""
  tags : List String := []
  createdAt : String := ""
  updatedAt : String := ""
  timestamp : Nat := 0
deriving DecidableEq

/-- A custom tag record (`{id, name, createdAt}`) as created by
`StorageManager.addCustomTag`. -/
structure CustomTag where
  id : String := ""
  name : String := ""
  createdAt : String := ""
deriving DecidableEq

/-- One parsed shard payload as consumed by `CloudSyncManager.mergeShards`.
Fields that the JS code guards with a truthiness test are `Option`s:
`notes`, `customTags` and `tagColors` are arrays/objects (truthy whenever
present, even when empty), while `syncTime` is a string (and `""` is falsy,
handled in `updateSyncTime`). -/
structure ShardData where
  notes : Option (List Note) := none
  customTags : Option (List CustomTag) := none
  tagColors : Option (List (String × Nat)) := none
  syncTime : Option String := none
deriving DecidableEq

/-- The combined snapshot returned by `CloudSyncManager.mergeShards`. -/
structure Snapshot where
  notes : List Note
  customTags : List CustomTag
  tagColors : List (String × Nat)
  syncTime : Option String
  version : String
deriving DecidableEq

/-- Remote data as seen by the download paths after JSON parsing: each field
may be absent (the JS code guards with `data.notes && Array.isArray(...)`
etc. before using it). -/
structure RemoteData where
  notes : Option (List Note) := none
  customTags : Option (List CustomTag) := none
  tagColors : Option (List (String × Nat)) := none
deriving DecidableEq

/-- The result record every public sync operation returns:
`{success, message}` plus the operation-specific optional fields the gist
variant adds (`size`, `shards`). -/
structure SyncResult where
  success : Bool
  message : String
  size : Option Nat := none
  shards : Option Nat := none
deriving DecidableEq

/-- The descending-recency sort used throughout the sync code
(`[...notes].sort((a, b) => b.timestamp - a.timestamp)`). -/
def sortByTimestampDesc (l : List Note) : List Note :=
  l.insertionSort (fun a b => b.timestamp ≤ a.timestamp)

/-- An insertion-ordered map from note ids to notes, modelling the JS `Map`
built by `CloudSyncManager.mergeNotes`. -/
abbrev NoteMap := List (String × Note)

/-- `Map.prototype.get`: the entry stored under `k` (keys are unique, so the
first match is the entry). -/
def mapGet : NoteMap → String → Option Note
  | [], _ => none
  | p :: m, k => if p.1 == k then some p.2 else mapGet m k

/-- `Map.prototype.set`: update in place when the key is present, otherwise
append at the end (JS `Map`s preserve insertion order). -/
def mapSet (m : NoteMap) (k : String) (v : Note) : NoteMap :=
  if m.any (fun p => p.1 == k) then
    m.map (fun p => if p.1 == k then (k, v) else p)
  else
    m ++ [(k, v)]

/-- The per-cloud-note step of `mergeNotes`: insert when the id is unseen,
otherwise replace only when the incoming note's timestamp is strictly
greater (`note.timestamp > existing.timestamp`). -/
def mergeStep (m : NoteMap) (n : Note) : NoteMap :=
  match mapGet m n.id with
  | none => mapSet m n.id n
  | some existing => if existing.timestamp < n.timestamp then mapSet m n.id n else m

/-- The id-keyed map built by `CloudSyncManager.mergeNotes`: local notes are
inserted unconditionally first, then each cloud note via `mergeStep`. -/
def mergeMap (localNotes cloudNotes : List Note) : NoteMap :=
  cloudNotes.foldl mergeStep (localNotes.foldl (fun m n => mapSet m n.id n) [])

/-- `CloudSyncManager.mergeNotes`: id-keyed last-writer-wins reconciliation of
local and cloud notes, returned sorted by descending timestamp. -/
def mergeNotes (localNotes cloudNotes : List Note) : List Note :=
  sortByTimestampDesc ((mergeMap localNotes cloudNotes).map (fun p => p.2))

/-- The greedy bin-packing loop of `CloudSyncManager.shardNotes`: `cur` is the
shard under construction, `curSize` the running note-byte total
(`currentSize`).  A note is pushed to a fresh shard when adding it would
exceed the limit and the current shard is non-empty. -/
def shardGo (size : Note → Nat) (base maxB : Nat) :
    List Note → Nat → List Note → List (List Note)
  | cur, _, [] => if cur.isEmpty then [] else [cur]
  | cur, curSize, n :: rest =>
    if maxB < curSize + size n + base ∧ ¬ cur.isEmpty then
      cur :: shardGo size base maxB [n] (size n) rest
    else
      shardGo size base maxB (cur ++ [n]) (curSize + size n) rest

/-- `CloudSyncManager.shardNotes`: sort by recency descending, then greedily
pack into shards of at most `maxB` estimated bytes; zero notes still yield
one empty shard. -/
def shardNotes (size : Note → Nat) (base maxB : Nat) (notes : List Note) :
    List (List Note) :=
  let shards := shardGo size base maxB [] 0 (sortByTimestampDesc notes)
  if shards.isEmpty then [[]] else shards

/-- The `allNotes` accumulation of `mergeShards`: concatenate the `notes`
arrays of the shards that have one. -/
def collectNotes (l : List ShardData) : List Note :=
  l.foldl (fun acc sd => match sd.notes with
    | some ns => acc ++ ns
    | none => acc) []

/-- The `customTags` accumulation of `mergeShards`: a present (truthy) field
replaces the accumulator, absence keeps it. -/
def lastTags (l : List ShardData) : List CustomTag :=
  l.foldl (fun acc sd => match sd.customTags with
    | some t => t
    | none => acc) []

/-- The `tagColors` accumulation of `mergeShards`. -/
def lastColors (l : List ShardData) : List (String × Nat) :=
  l.foldl (fun acc sd => match sd.tagColors with
    | some t => t
    | none => acc) []

/-- Lexicographic comparison of character lists, modelling the JS `<`/`>`
comparison on strings used for `syncTime` values. -/
def charListLtb : List Char → List Char → Bool
  | _, [] => false
  | [], _ :: _ => true
  | a :: as, b :: bs =>
    if a < b then true else if b < a then false else charListLtb as bs

/-- JS string comparison `a < b`. -/
def strLtb (a b : String) : Bool :=
  charListLtb a.data b.data

/-- The `latestSyncTime` update of `mergeShards`:
`if (shardData.syncTime) { if (!latestSyncTime || shardData.syncTime > latestSyncTime) ... }`.
An absent or empty (falsy) string leaves the accumulator unchanged. -/
def updateSyncTime (cur : Option String) (st : Option String) : Option String :=
  match st with
  | none => cur
  | some s =>
    if s = "" then cur
    else
      match cur with
      | none => some s
      | some c => if strLtb c s then some s else cur

/-- The `latestSyncTime` accumulation over all shards. -/
def latestSync (l : List ShardData) : Option String :=
  l.foldl (fun cur sd => updateSyncTime cur sd.syncTime) none

/-- The id-based deduplication loop of `mergeShards` (`seenIds` set, keep the
first occurrence of each id). -/
def dedupGo (seen : List String) : List Note → List Note
  | [] => []
  | n :: rest =>
    if n.id ∈ seen then dedupGo seen rest
    else n :: dedupGo (n.id :: seen) rest

/-- Deduplicate notes by id, keeping first occurrences. -/
def dedupById (l : List Note) : List Note :=
  dedupGo [] l

/-- `CloudSyncManager.mergeShards`: concatenate all shards' notes, let the
last present value win for `customTags`/`tagColors`, keep the greatest
(string-compared) non-empty `syncTime`, then deduplicate notes by id. -/
def mergeShards (l : List ShardData) : Snapshot :=
  { notes := dedupById (collectNotes l)
    customTags := lastTags l
    tagColors := lastColors l
    syncTime := latestSync l
    version := "1.0" }

/-- Wrap raw shards (note lists) as shard payloads the way
`createGist`/`updateGist` serialize them, restricted to the `notes` field
(the only field the round-trip claim is about). -/
def shardsToData (shards : List (List Note)) : List ShardData :=
  shards.map (fun s => { notes := some s })

/-- The notes the sharded-gist `CloudSyncManager.syncDown` saves to the local
store once a remote snapshot has been fetched: remote notes are reconciled
with the local ones via `mergeNotes` (when the remote carries a notes array),
otherwise the local collection is left untouched. -/
def gistDownSavedNotes (localNotes : List Note) (remote : RemoteData) : List Note :=
  match remote.notes with
  | some ns => mergeNotes localNotes ns
  | none => localNotes

/-- The notes `WebDAVSyncManager.syncDown` saves on a successful fetch: the
remote notes array wholesale (`this.storage.saveNotes(data.notes)`), no
reconciliation with the local collection. -/
def webdavDownSavedNotes (localNotes : List Note) (remote : RemoteData) : List Note :=
  match remote.notes with
  | some ns => ns
  | none => localNotes

/-- The notes the legacy single-file `CloudSyncManager.syncDown`
(`src/unnamed/part_000` and the non-sharded manager) saves: remote wholesale,
same as the WebDAV variant. -/
def legacyDownSavedNotes (localNotes : List Note) (remote : RemoteData) : List Note :=
  match remote.notes with
  | some ns => ns
  | none => localNotes

/-- The custom tags the sharded-gist `syncDown` saves:
`[...new Set([...localTags, ...cloudData.customTags])]`.  The `Set` is built
over object references; local tags and freshly JSON-parsed remote tags are
always distinct references, so no structural deduplication happens and the
result is the concatenation of the two arrays. -/
def gistDownSavedTags (localTags : List CustomTag) (remote : RemoteData) : List CustomTag :=
  match remote.customTags with
  | some ts => localTags ++ ts
  | none => localTags

/-- The custom tags `WebDAVSyncManager.syncDown` (and the legacy variants)
save: the remote array wholesale. -/
def webdavDownSavedTags (localTags : List CustomTag) (remote : RemoteData) : List CustomTag :=
  match remote.customTags with
  | some ts => ts
  | none => localTags

/-- The notes the sharded-gist `syncUp` uploads: when a gist id is stored and
the cloud fetch succeeds with a notes array, merge cloud into local;
otherwise (no id, fetch failure, or no notes array) upload the local notes
as they are (the inner `try` swallows the fetch error). -/
def gistUploadNotes (localNotes : List Note) (gistId : Option String)
    (fetch : Except String RemoteData) : List Note :=
  match gistId with
  | none => localNotes
  | some _ =>
    match fetch with
    | .error _ => localNotes
    | .ok cloud =>
      match cloud.notes with
      | some cns => mergeNotes localNotes cns
      | none => localNotes

/-- The result record of the sharded-gist `CloudSyncManager.syncUp`.  The
whole body is wrapped in `try/catch`: an error thrown by `updateGist`
(modelled by the `upload` argument) becomes `{success: false, message:
error.message}`; on success the message reports the shard count and the
record carries the serialized size and shard count. -/
def gistSyncUp (localNotes : List Note) (gistId : Option String)
    (fetch : Except String RemoteData) (upload : Except String Unit)
    (size : Note → Nat) (base maxB sizeBytes : Nat) : SyncResult :=
  match upload with
  | .error e => { success := false, message := e }
  | .ok _ =>
    let shards := shardNotes size base maxB (gistUploadNotes localNotes gistId fetch)
    { success := true
      message := "上传成功！" ++
        (if 1 < shards.length then " (" ++ toString shards.length ++ " 个分片)" else "")
      size := some sizeBytes
      shards := some shards.length }

/-- The result record of the sharded-gist `CloudSyncManager.syncDown`:
a thrown error (fetch, parse or local save) is caught and reported;
otherwise the success message quotes the post-merge note count. -/
def gistSyncDown (finalNoteCount : Nat) (fetch : Except String RemoteData) : SyncResult :=
  match fetch with
  | .error e => { success := false, message := e }
  | .ok _ => { success := true
               message := "合并成功！共 " ++ toString finalNoteCount ++ " 条笔记" }

/-- The result record of `WebDAVSyncManager.syncUp`.  `connected` is the
configuration check (a missing configuration throws inside the `try` and is
caught); `response` is either a thrown network error or the HTTP status
code; the code accepts `response.ok || 201 || 204` and maps 401/507 and
other statuses to failure messages. -/
def webdavSyncUp (connected : Bool) (sizeBytes : Nat)
    (response : Except String Nat) : SyncResult :=
  if !connected then { success := false, message := "未配置 WebDAV 连接" }
  else
    match response with
    | .error e => { success := false, message := e }
    | .ok st =>
      if (200 ≤ st ∧ st < 300) ∨ st = 201 ∨ st = 204 then
        { success := true, message := "上传成功！", size := some sizeBytes }
      else if st = 401 then { success := false, message := "认证失败，请检查账号密码" }
      else if st = 507 then { success := false, message := "存储空间不足" }
      else { success := false, message := "上传失败 (" ++ toString st ++ ")" }

/-- The result record of `WebDAVSyncManager.syncDown`: thrown errors
(network, JSON parse, local save) are caught; a 2xx response succeeds,
404/401 and other statuses map to failure messages. -/
def webdavSyncDown (connected : Bool) (response : Except String Nat) : SyncResult :=
  if !connected then { success := false, message := "未配置 WebDAV 连接" }
  else
    match response with
    | .error e => { success := false, message := e }
    | .ok st =>
      if 200 ≤ st ∧ st < 300 then { success := true, message := "下载成功！" }
      else if st = 404 then { success := false, message := "云端没有找到数据文件" }
      else if st = 401 then { success := false, message := "认证失败，请检查账号密码" }
      else { success := false, message := "下载失败 (" ++ toString st ++ ")" }

/-- The result record of the legacy `CloudSyncManager.syncUp`
(`src/unnamed/part_000`): any thrown error is caught and reported, success
returns the fixed message. -/
def legacySyncUp (upload : Except String Unit) : SyncResult :=
  match upload with
  | .error e => { success := false, message := e }
  | .ok _ => { success := true, message := "上传成功！" }

/-- The result record of the legacy `CloudSyncManager.syncDown`. -/
def legacySyncDown (fetch : Except String RemoteData) : SyncResult :=
  match fetch with
  | .error e => { success := false, message := e }
  | .ok _ => { success := true, message := "下载成功！" }

/-- The scheduler-relevant state of a sync manager: the persisted
configuration (`insight_auto_sync`, `insight_sync_interval`, credential
presence) together with the set of live interval timers
(`(timer id, period in ms)`) and the manager's `autoSyncTimer` field. -/
structure SchedulerState where
  enabled : Bool
  intervalMinutes : Nat
  connected : Bool
  activeTimers : List (Nat × Nat)
  autoSyncTimer : Option Nat
  nextTimerId : Nat
deriving DecidableEq

/-- `stopAutoSync`: clear the pending interval timer (if any) and null the
handle; a no-op when no timer is stored. -/
def stopAutoSync (s : SchedulerState) : SchedulerState :=
  match s.autoSyncTimer with
  | some t =>
    { s with activeTimers := s.activeTimers.filter (fun p => p.1 != t)
             autoSyncTimer := none }
  | none => s

/-- `startAutoSync`: always stop first, then (only when auto-sync is enabled
and credentials are present) create a fresh interval timer with period
`interval * 60 * 1000` and remember its handle. -/
def startAutoSync (s : SchedulerState) : SchedulerState :=
  let s1 := stopAutoSync s
  if s1.enabled && s1.connected then
    { s1 with
      activeTimers := s1.activeTimers ++ [(s1.nextTimerId, s1.intervalMinutes * 60 * 1000)]
      autoSyncTimer := some s1.nextTimerId
      nextTimerId := s1.nextTimerId + 1 }
  else s1

/-- `setAutoSyncEnabled`: persist the flag, then start or stop. -/
def setAutoSyncEnabled (b : Bool) (s : SchedulerState) : SchedulerState :=
  let s1 := { s with enabled := b }
  if b then startAutoSync s1 else stopAutoSync s1

/-- `setSyncInterval`: persist the new interval and, when auto-sync is
enabled, restart the timer so the new period applies immediately. -/
def setSyncInterval (m : Nat) (s : SchedulerState) : SchedulerState :=
  let s1 := { s with intervalMinutes := m }
  if s1.enabled then startAutoSync s1 else s1

/-- The operations that can touch the scheduler state. -/
inductive SchedOp where
  | start : SchedOp
  | stop : SchedOp
  | setEnabled : Bool → SchedOp
  | setInterval : Nat → SchedOp
  | setConnected : Bool → SchedOp

/-- Apply one scheduler operation (`setConnected` models
`saveToken`/`clearToken`, which change only credential presence). -/
def applySchedOp : SchedOp → SchedulerState → SchedulerState
  | .start, s => startAutoSync s
  | .stop, s => stopAutoSync s
  | .setEnabled b, s => setAutoSyncEnabled b s
  | .setInterval m, s => setSyncInterval m s
  | .setConnected b, s => { s with connected := b }

/-- Run a sequence of scheduler operations. -/
def runSchedOps (ops : List SchedOp) (s : SchedulerState) : SchedulerState :=
  ops.foldl (fun s op => applySchedOp op s) s

/-- The state of a freshly constructed manager: auto-sync off, default
10-minute interval, no credentials, no timer. -/
def initScheduler : SchedulerState :=
  { enabled := false, intervalMinutes := 10, connected := false
    activeTimers := [], autoSyncTimer := none, nextTimerId := 0 }

/-- Scheduler invariant: the live timers are exactly the one the manager's
`autoSyncTimer` field points to (or none). -/
def SchedInv (s : SchedulerState) : Prop :=
  match s.autoSyncTimer with
  | none => s.activeTimers = []
  | some t => s.activeTimers.map Prod.fst = [t]


/-! ### Association-list map lemmas -/

/-- The keys of a note map. -/
def mapKeys (m : NoteMap) : List String :=
  m.map (fun p => p.1)

theorem mapGet_update_self (m : NoteMap) (k : String) (v : Note)
    (ha : m.any (fun p => p.1 == k)) :
    mapGet (m.map (fun p => if p.1 == k then (k, v) else p)) k = some v := by
  induction m with
  | nil => simp at ha
  | cons p m ih =>
    by_cases hk : p.1 = k
    · simp [mapGet, hk]
    · have hk' : (p.1 == k) = false := by simp [hk]
      have ha' : m.any (fun p => p.1 == k) := by
        simpa [List.any_cons, hk'] using ha
      simpa [mapGet, hk'] using ih ha'

theorem mapGet_append_self (m : NoteMap) (k : String) (v : Note)
    (ha : ¬ m.any (fun p => p.1 == k)) :
    mapGet (m ++ [(k, v)]) k = some v := by
  induction m with
  | nil => simp [mapGet]
  | cons p m ih =>
    have hk' : (p.1 == k) = false := by
      by_contra hc
      exact ha (by simp [List.any_cons, by simpa using hc])
    have ha' : ¬ m.any (fun p => p.1 == k) := by
      intro hc
      exact ha (by simp [List.any_cons, hc])
    simpa [mapGet, hk'] using ih ha'

theorem mapGet_update_ne (m : NoteMap) (k k' : String) (v : Note) (h : k' ≠ k) :
    mapGet (m.map (fun p => if p.1 == k then (k, v) else p)) k'
      = mapGet m k' := by
  have hne : ¬ (k = k') := fun hh => h hh.symm
  induction m with
  | nil => simp [mapGet]
  | cons p m ih =>
    by_cases hk : p.1 = k
    · have h1 : (k == k') = false := by simp [hne]
      have h2 : (p.1 == k') = false := by simp [hk, hne]
      simpa [mapGet, hk, h1, h2] using ih
    · have hk' : (p.1 == k) = false := by simp [hk]
      by_cases hp : p.1 = k'
      · simp [mapGet, hk', hp, h]
      · have hp' : (p.1 == k') = false := by simp [hp]
        simpa [mapGet, hk', hp'] using ih

theorem mapGet_append_ne (m : NoteMap) (k k' : String) (v : Note) (h : k' ≠ k) :
    mapGet (m ++ [(k, v)]) k' = mapGet m k' := by
  have hne : ¬ (k = k') := fun hh => h hh.symm
  induction m with
  | nil => simp [mapGet, hne]
  | cons p m ih =>
    by_cases hp : p.1 = k'
    · simp [mapGet, hp]
    · have hp' : (p.1 == k') = false := by simp [hp]
      simpa [mapGet, hp'] using ih

theorem mapGet_mapSet_self (m : NoteMap) (k : String) (v : Note) :
    mapGet (mapSet m k v) k = some v := by
  unfold mapSet
  by_cases ha : m.any (fun p => p.1 == k)
  · rw [if_pos ha]; exact mapGet_update_self m k v ha
  · rw [if_neg ha]; exact mapGet_append_self m k v ha

theorem mapGet_mapSet_ne (m : NoteMap) (k k' : String) (v : Note) (h : k' ≠ k) :
    mapGet (mapSet m k v) k' = mapGet m k' := by
  unfold mapSet
  by_cases ha : m.any (fun p => p.1 == k)
  · rw [if_pos ha]; exact mapGet_update_ne m k k' v h
  · rw [if_neg ha]; exact mapGet_append_ne m k k' v h

theorem mapKeys_mapSet (m : NoteMap) (k : String) (v : Note) :
    mapKeys (mapSet m k v) =
      if m.any (fun p => p.1 == k) then mapKeys m else mapKeys m ++ [k] := by
  by_cases ha : m.any (fun p => p.1 == k)
  · rw [if_pos ha]
    unfold mapSet
    rw [if_pos ha]
    unfold mapKeys
    rw [List.map_map]
    apply List.map_congr_left
    intro p _
    by_cases hk : p.1 = k <;> simp [Function.comp, hk]
  · rw [if_neg ha]
    unfold mapSet
    rw [if_neg ha]
    simp [mapKeys]

theorem mapKeys_nodup_mapSet (m : NoteMap) (k : String) (v : Note)
    (h : (mapKeys m).Nodup) : (mapKeys (mapSet m k v)).Nodup := by
  rw [mapKeys_mapSet]
  by_cases ha : m.any (fun p => p.1 == k)
  · simpa [ha] using h
  · have hk : k ∉ mapKeys m := by
      intro hmem
      rcases List.mem_map.mp hmem with ⟨p, hp, hpk⟩
      exact absurd (List.any_eq_true.mpr ⟨p, hp, by simp [hpk]⟩) ha
    simp only [ha, if_neg, Bool.false_eq_true, not_false_iff]
    simpa [List.nodup_append] using ⟨h, hk⟩

/-- The last note of `L` whose id is `i` (the value phase 1 of `mergeNotes`
leaves under key `i`). -/
def lastWithId (L : List Note) (i : String) : Option Note :=
  L.foldl (fun acc n => if n.id == i then some n else acc) none

/-- Conflict resolution against one incoming note: keep the current entry
unless the incoming note's timestamp is strictly greater. -/
def resolve (o : Option Note) (n : Note) : Option Note :=
  match o with
  | none => some n
  | some e => if e.timestamp < n.timestamp then some n else o

/-- Resolution of all cloud notes with id `i` against a starting entry. -/
def resolveChain (o : Option Note) (C : List Note) (i : String) : Option Note :=
  C.foldl (fun o n => if n.id == i then resolve o n else o) o

theorem mapGet_phase1 (L : List Note) (m : NoteMap) (i : String) :
    mapGet (L.foldl (fun m n => mapSet m n.id n) m) i
      = L.foldl (fun acc n => if n.id == i then some n else acc) (mapGet m i) := by
  induction L generalizing m with
  | nil => rfl
  | cons n L ih =>
    simp only [List.foldl_cons]
    rw [ih]
    congr 1
    by_cases h : n.id = i
    · subst h
      simp [mapGet_mapSet_self]
    · have hb : (n.id == i) = false := by simp [h]
      rw [hb]
      simp only [Bool.false_eq_true, if_neg, not_false_iff]
      exact mapGet_mapSet_ne m n.id i n (fun hh => h hh.symm)

theorem mapGet_mergeStep (m : NoteMap) (n : Note) (i : String) :
    mapGet (mergeStep m n) i
      = if n.id == i then resolve (mapGet m i) n else mapGet m i := by
  by_cases h : n.id = i
  · subst h
    simp only [beq_self_eq_true, if_pos]
    unfold mergeStep
    cases hg : mapGet m n.id with
    | none => simp [resolve, hg, mapGet_mapSet_self]
    | some e =>
      by_cases ht : e.timestamp < n.timestamp
      · simp [resolve, hg, ht, mapGet_mapSet_self]
      · simp [resolve, hg, ht]
  · have hb : (n.id == i) = false := by simp [h]
    rw [hb]
    simp only [Bool.false_eq_true, if_neg, not_false_iff]
    unfold mergeStep
    cases hg : mapGet m n.id with
    | none => exact mapGet_mapSet_ne m n.id i n (fun hh => h hh.symm)
    | some e =>
      by_cases ht : e.timestamp < n.timestamp
      · simpa [ht] using mapGet_mapSet_ne m n.id i n (fun hh => h hh.symm)
      · simp [ht]

theorem mapGet_phase2 (C : List Note) (m : NoteMap) (i : String) :
    mapGet (C.foldl mergeStep m) i = resolveChain (mapGet m i) C i := by
  induction C generalizing m with
  | nil => rfl
  | cons n C ih =>
    simp only [List.foldl_cons, resolveChain] at *
    rw [ih, mapGet_mergeStep]

theorem mapGet_mergeMap (L C : List Note) (i : String) :
    mapGet (mergeMap L C) i = resolveChain (lastWithId L i) C i := by
  unfold mergeMap
  rw [mapGet_phase2]
  congr 1
  simpa [mapGet, lastWithId] using mapGet_phase1 L [] i

/-- Well-formedness of the note maps built by `mergeNotes`: keys are distinct
and every entry's key is its note's id. -/
def MapWF (m : NoteMap) : Prop :=
  (mapKeys m).Nodup ∧ ∀ p ∈ m, (p : String × Note).2.id = p.1

theorem mapWF_mapSet (m : NoteMap) (v : Note) (h : MapWF m) :
    MapWF (mapSet m v.id v) := by
  refine ⟨mapKeys_nodup_mapSet m v.id v h.1, ?_⟩
  intro p hp
  by_cases ha : m.any (fun q => q.1 == v.id)
  · simp only [mapSet, ha, if_pos] at hp
    rcases List.mem_map.mp hp with ⟨q, hq, hqp⟩
    by_cases hk : q.1 = v.id
    · simp only [hk, beq_self_eq_true, if_pos] at hqp
      simp [← hqp]
    · have : (q.1 == v.id) = false := by simp [hk]
      simp only [this, Bool.false_eq_true, if_neg, not_false_iff] at hqp
      exact hqp ▸ h.2 q hq
  · simp only [mapSet, ha, Bool.false_eq_true, if_neg, not_false_iff,
      List.mem_append, List.mem_singleton] at hp
    rcases hp with hp | hp
    · exact h.2 p hp
    · simp [hp]

theorem mapWF_phase1 (L : List Note) (m : NoteMap) (h : MapWF m) :
    MapWF (L.foldl (fun m n => mapSet m n.id n) m) := by
  induction L generalizing m with
  | nil => exact h
  | cons n L ih => exact ih _ (mapWF_mapSet m n h)

theorem mapWF_mergeStep (m : NoteMap) (n : Note) (h : MapWF m) :
    MapWF (mergeStep m n) := by
  unfold mergeStep
  cases mapGet m n.id with
  | none => exact mapWF_mapSet m n h
  | some e =>
    by_cases ht : e.timestamp < n.timestamp
    · simpa [ht] using mapWF_mapSet m n h
    · simpa [ht] using h

theorem mapWF_mergeMap (L C : List Note) : MapWF (mergeMap L C) := by
  unfold mergeMap
  have h1 : MapWF (L.foldl (fun m n => mapSet m n.id n) []) :=
    mapWF_phase1 L [] ⟨List.nodup_nil, by simp⟩
  generalize (L.foldl (fun m n => mapSet m n.id n) []) = m at h1 ⊢
  induction C generalizing m with
  | nil => exact h1
  | cons n C ih => exact ih _ (mapWF_mergeStep m n h1)

/-- The values stored in a note map. -/
def mapValues (m : NoteMap) : List Note :=
  m.map (fun p => p.2)

theorem mapGet_of_mem (m : NoteMap) (k : String) (v : Note)
    (hnd : (mapKeys m).Nodup) (hp : (k, v) ∈ m) : mapGet m k = some v := by
  induction m with
  | nil => simp at hp
  | cons p m ih =>
    rcases List.mem_cons.mp hp with hp | hp
    · simp [mapGet, ← hp]
    · have hnd2 : (p.1 :: mapKeys m).Nodup := hnd
      have hkey : k ∈ mapKeys m := List.mem_map.mpr ⟨(k, v), hp, rfl⟩
      have hk : p.1 ≠ k := fun he => (List.nodup_cons.mp hnd2).1 (he ▸ hkey)
      have hb : (p.1 == k) = false := by simp [hk]
      have hnd' : (mapKeys m).Nodup := (List.nodup_cons.mp hnd2).2
      simpa [mapGet, hb] using ih hnd' hp

theorem mem_of_mapGet (m : NoteMap) (k : String) (v : Note)
    (h : mapGet m k = some v) : (k, v) ∈ m := by
  induction m with
  | nil => simp [mapGet] at h
  | cons p m ih =>
    by_cases hk : p.1 = k
    · have hb : (p.1 == k) = true := by simp [hk]
      simp only [mapGet, hb, if_pos, Option.some.injEq] at h
      exact List.mem_cons.mpr (Or.inl (by rw [← hk, ← h]))
    · have hb : (p.1 == k) = false := by simp [hk]
      simp only [mapGet, hb, Bool.false_eq_true, if_neg, not_false_iff] at h
      exact List.mem_cons.mpr (Or.inr (ih h))

theorem mem_mapValues_iff (m : NoteMap) (h : MapWF m) (n : Note) :
    n ∈ mapValues m ↔ mapGet m n.id = some n := by
  constructor
  · intro hv
    rcases List.mem_map.mp hv with ⟨p, hp, hpv⟩
    have hk : p.1 = n.id := by rw [← hpv]; exact (h.2 p hp).symm ▸ rfl
    have : (n.id, n) ∈ m := by
      have : p = (n.id, n) := by
        cases p with
        | mk a b => simp only [Prod.mk.injEq]; exact ⟨hk, hpv⟩
      exact this ▸ hp
    exact mapGet_of_mem m n.id n h.1 this
  · intro hg
    exact List.mem_map.mpr ⟨(n.id, n), mem_of_mapGet m n.id n hg, rfl⟩

theorem mapValues_mapSet_subset (m : NoteMap) (k : String) (v v' : Note)
    (h : v' ∈ mapValues (mapSet m k v)) : v' = v ∨ v' ∈ mapValues m := by
  unfold mapSet at h
  by_cases ha : m.any (fun p => p.1 == k)
  · rw [if_pos ha] at h
    rcases List.mem_map.mp h with ⟨p, hp, hpv⟩
    rcases List.mem_map.mp hp with ⟨q, hq, hqp⟩
    by_cases hk : q.1 = k
    · left
      rw [← hpv, ← hqp]
      simp [hk]
    · right
      have hb : (q.1 == k) = false := by simp [hk]
      rw [← hpv, ← hqp]
      simp only [hb, Bool.false_eq_true, if_neg, not_false_iff]
      exact List.mem_map.mpr ⟨q, hq, rfl⟩
  · rw [if_neg ha] at h
    unfold mapValues at h
    rw [List.map_append] at h
    rcases List.mem_append.mp h with h | h
    · exact Or.inr h
    · simp at h
      exact Or.inl h

theorem mapValues_phase1_subset (L : List Note) (m : NoteMap) (v : Note)
    (h : v ∈ mapValues (L.foldl (fun m n => mapSet m n.id n) m)) :
    v ∈ mapValues m ∨ v ∈ L := by
  induction L generalizing m with
  | nil => exact Or.inl h
  | cons n L ih =>
    rcases ih (mapSet m n.id n) h with h' | h'
    · rcases mapValues_mapSet_subset m n.id n v h' with h'' | h''
      · exact Or.inr (h'' ▸ List.mem_cons_self n L)
      · exact Or.inl h''
    · exact Or.inr (List.mem_cons_of_mem n h')

theorem mapValues_mergeStep_subset (m : NoteMap) (n v : Note)
    (h : v ∈ mapValues (mergeStep m n)) : v = n ∨ v ∈ mapValues m := by
  revert h
  unfold mergeStep
  cases mapGet m n.id with
  | none =>
    intro h
    exact mapValues_mapSet_subset m n.id n v h
  | some e =>
    intro h
    by_cases ht : e.timestamp < n.timestamp
    · refine mapValues_mapSet_subset m n.id n v ?_
      simpa [ht] using h
    · right
      simpa [ht] using h

theorem mapValues_phase2_subset (C : List Note) (m : NoteMap) (v : Note)
    (h : v ∈ mapValues (C.foldl mergeStep m)) :
    v ∈ mapValues m ∨ v ∈ C := by
  induction C generalizing m with
  | nil => exact Or.inl h
  | cons n C ih =>
    rcases ih (mergeStep m n) h with h' | h'
    · rcases mapValues_mergeStep_subset m n v h' with h'' | h''
      · exact Or.inr (h'' ▸ List.mem_cons_self n C)
      · exact Or.inl h''
    · exact Or.inr (List.mem_cons_of_mem n h')

theorem mergeNotes_perm_values (L C : List Note) :
    (mergeNotes L C).Perm (mapValues (mergeMap L C)) := by
  unfold mergeNotes sortByTimestampDesc
  exact List.perm_insertionSort _ _

theorem mem_mergeNotes_iff (L C : List Note) (n : Note) :
    n ∈ mergeNotes L C ↔ mapGet (mergeMap L C) n.id = some n := by
  rw [(mergeNotes_perm_values L C).mem_iff]
  exact mem_mapValues_iff _ (mapWF_mergeMap L C) n

theorem lastWithId_congr_of_no_match (L : List Note) (i : String)
    (o : Option Note) (h : ∀ n ∈ L, n.id ≠ i) :
    L.foldl (fun acc n => if n.id == i then some n else acc) o = o := by
  induction L generalizing o with
  | nil => rfl
  | cons n L ih =>
    have hb : (n.id == i) = false := by simp [h n (List.mem_cons_self n L)]
    simp only [List.foldl_cons, hb, Bool.false_eq_true, if_neg, not_false_iff]
    exact ih o (fun m hm => h m (List.mem_cons_of_mem n hm))

theorem lastWithId_of_mem_nodup (L : List Note) (a : Note)
    (ha : a ∈ L) (hnd : (L.map Note.id).Nodup) :
    lastWithId L a.id = some a := by
  induction L with
  | nil => simp at ha
  | cons n L ih =>
    have hnd2 : (∀ x ∈ L, ¬ x.id = n.id) ∧ (L.map Note.id).Nodup := by
      simpa using hnd
    rcases List.mem_cons.mp ha with ha | ha
    · subst ha
      unfold lastWithId
      simp only [List.foldl_cons, beq_self_eq_true, if_pos]
      exact lastWithId_congr_of_no_match L a.id (some a) hnd2.1
    · have hne : n.id ≠ a.id := fun he => hnd2.1 a ha he.symm
      have hb : (n.id == a.id) = false := by simp [hne]
      unfold lastWithId at *
      simp only [List.foldl_cons, hb, Bool.false_eq_true, if_neg, not_false_iff]
      exact ih ha hnd2.2

theorem resolveChain_filter (C : List Note) (o : Option Note) (i : String) :
    resolveChain o C i = (C.filter (fun n => n.id == i)).foldl resolve o := by
  induction C generalizing o with
  | nil => rfl
  | cons n C ih =>
    by_cases h : n.id = i
    · have hb : (n.id == i) = true := by simp [h]
      simp only [resolveChain, List.foldl_cons, List.filter_cons, hb, if_pos]
      exact ih (resolve o n)
    · have hb : (n.id == i) = false := by simp [h]
      simp only [resolveChain, List.foldl_cons, List.filter_cons, hb,
        Bool.false_eq_true, if_neg, not_false_iff]
      exact ih o

theorem filter_id_singleton (C : List Note) (b : Note)
    (hb : b ∈ C) (hnd : (C.map Note.id).Nodup) :
    C.filter (fun n => n.id == b.id) = [b] := by
  induction C with
  | nil => simp at hb
  | cons n C ih =>
    have hnd2 : (∀ x ∈ C, ¬ x.id = n.id) ∧ (C.map Note.id).Nodup := by
      simpa using hnd
    rcases List.mem_cons.mp hb with hb' | hb'
    · subst hb'
      have hno : ∀ m ∈ C, ¬ (m.id == b.id) = true := by
        intro m hm he
        exact hnd2.1 m hm (by simpa using he)
      simp only [List.filter_cons, beq_self_eq_true, if_pos]
      rw [List.filter_eq_nil_iff.mpr hno]
    · have hne : n.id ≠ b.id := fun he => hnd2.1 b hb' he.symm
      have hbf : (n.id == b.id) = false := by simp [hne]
      simp only [List.filter_cons, hbf, Bool.false_eq_true, if_neg, not_false_iff]
      exact ih hb' hnd2.2

theorem resolveChain_none (C : List Note) (o : Option Note) (i : String)
    (h : resolveChain o C i = none) : o = none := by
  induction C generalizing o with
  | nil => exact h
  | cons n C ih =>
    simp only [resolveChain, List.foldl_cons] at h
    by_cases hn : n.id = i
    · have hb : (n.id == i) = true := by simp [hn]
      rw [hb] at h
      simp only [if_pos] at h
      have := ih (resolve o n) h
      cases o with
      | none => rfl
      | some e =>
        exfalso
        unfold resolve at this
        by_cases ht : e.timestamp < n.timestamp <;> simp [ht] at this
    · have hb : (n.id == i) = false := by simp [hn]
      rw [hb] at h
      simp only [Bool.false_eq_true, if_neg, not_false_iff] at h
      exact ih o h

theorem resolveChain_growth (C : List Note) (x w : Note) (i : String)
    (h : resolveChain (some x) C i = some w) :
    w = x ∨ x.timestamp < w.timestamp := by
  induction C generalizing x with
  | nil => exact Or.inl (by simpa [resolveChain] using h.symm)
  | cons n C ih =>
    simp only [resolveChain, List.foldl_cons] at h
    by_cases hn : n.id = i
    · have hb : (n.id == i) = true := by simp [hn]
      rw [hb] at h
      simp only [if_pos] at h
      by_cases ht : x.timestamp < n.timestamp
      · have h' : resolveChain (some n) C i = some w := by
          simpa [resolve, ht, resolveChain] using h
        rcases ih n h' with h'' | h''
        · exact Or.inr (h'' ▸ ht)
        · exact Or.inr (lt_trans ht h'')
      · have h' : resolveChain (some x) C i = some w := by
          simpa [resolve, ht, resolveChain] using h
        exact ih x h'
    · have hb : (n.id == i) = false := by simp [hn]
      rw [hb] at h
      simp only [Bool.false_eq_true, if_neg, not_false_iff] at h
      exact ih x h

theorem noteMap_perm_of_get_eq (m1 m2 : NoteMap) (h1 : MapWF m1) (h2 : MapWF m2)
    (h : ∀ k, mapGet m1 k = mapGet m2 k) : m1.Perm m2 := by
  have hn1 : m1.Nodup := by
    have hk := h1.1
    unfold mapKeys at hk
    exact List.Nodup.of_map _ hk
  have hn2 : m2.Nodup := by
    have hk := h2.1
    unfold mapKeys at hk
    exact List.Nodup.of_map _ hk
  rw [List.perm_ext_iff_of_nodup hn1 hn2]
  intro p
  cases p with
  | mk k v =>
    constructor
    · intro hp
      exact mem_of_mapGet m2 k v ((h k).symm.trans (mapGet_of_mem m1 k v h1.1 hp))
    · intro hp
      exact mem_of_mapGet m1 k v ((h k).trans (mapGet_of_mem m2 k v h2.1 hp))

theorem mergeNotes_ids_nodup (L C : List Note) :
    ((mergeNotes L C).map Note.id).Nodup := by
  have hwf := mapWF_mergeMap L C
  have hperm : ((mergeNotes L C).map Note.id).Perm
      ((mapValues (mergeMap L C)).map Note.id) :=
    (mergeNotes_perm_values L C).map Note.id
  have hkeys : (mapValues (mergeMap L C)).map Note.id = mapKeys (mergeMap L C) := by
    unfold mapValues mapKeys
    rw [List.map_map]
    apply List.map_congr_left
    intro p hp
    exact hwf.2 p hp
  rw [hperm.nodup_iff, hkeys]
  exact hwf.1

/-! ### Claim theorems: note reconciliation -/

/-- C2: for all local and remote collections with unique ids on each side
(the data model's id-uniqueness invariant), when a remote note's id collides
with a local note's id, `mergeNotes` keeps exactly the one with the later
recency timestamp, and on an exact tie the local (already-seen) note wins. -/
theorem mergeNotes_collision_latest_wins (L C : List Note) (a b : Note)
    (ha : a ∈ L) (hb : b ∈ C) (hid : b.id = a.id)
    (hL : (L.map Note.id).Nodup) (hC : (C.map Note.id).Nodup) :
    (a.timestamp < b.timestamp →
      b ∈ mergeNotes L C ∧ ∀ n ∈ mergeNotes L C, n.id = a.id → n = b) ∧
    (b.timestamp ≤ a.timestamp →
      a ∈ mergeNotes L C ∧ ∀ n ∈ mergeNotes L C, n.id = a.id → n = a) := by
  have hget : mapGet (mergeMap L C) a.id
      = resolveChain (lastWithId L a.id) C a.id := mapGet_mergeMap L C a.id
  rw [lastWithId_of_mem_nodup L a ha hL] at hget
  have hfil := filter_id_singleton C b hb hC
  rw [hid] at hfil
  rw [resolveChain_filter, hfil] at hget
  constructor
  · intro hlt
    have hg2 : mapGet (mergeMap L C) a.id = some b := by
      rw [hget]; simp [resolve, hlt]
    refine ⟨?_, ?_⟩
    · rw [mem_mergeNotes_iff, hid]; exact hg2
    · intro n hn hni
      have hg3 := (mem_mergeNotes_iff L C n).mp hn
      rw [hni] at hg3
      exact Option.some.inj (hg3.symm.trans hg2)
  · intro hle
    have hnlt : ¬ a.timestamp < b.timestamp := not_lt.mpr hle
    have hg2 : mapGet (mergeMap L C) a.id = some a := by
      rw [hget]; simp [resolve, hnlt]
    refine ⟨?_, ?_⟩
    · rw [mem_mergeNotes_iff]; exact hg2
    · intro n hn hni
      have hg3 := (mem_mergeNotes_iff L C n).mp hn
      rw [hni] at hg3
      exact Option.some.inj (hg3.symm.trans hg2)

/-- Witness for C2 at concrete inputs: a local and a remote note share the
id `"1"`, the remote one is newer, so it is the unique survivor. -/
theorem mergeNotes_collision_latest_wins_witness :
    ({ id := "1", timestamp := 5 } : Note) ∈ [({ id := "1", timestamp := 5 } : Note)] ∧
    ({ id := "1", timestamp := 9 } : Note) ∈ [({ id := "1", timestamp := 9 } : Note)] ∧
    (({ id := "1", timestamp := 9 } : Note).id = ({ id := "1", timestamp := 5 } : Note).id) ∧
    (([({ id := "1", timestamp := 5 } : Note)].map Note.id).Nodup) ∧
    (([({ id := "1", timestamp := 9 } : Note)].map Note.id).Nodup) ∧
    ((({ id := "1", timestamp := 5 } : Note).timestamp
        < ({ id := "1", timestamp := 9 } : Note).timestamp →
      ({ id := "1", timestamp := 9 } : Note) ∈
        mergeNotes [{ id := "1", timestamp := 5 }] [{ id := "1", timestamp := 9 }] ∧
      ∀ n ∈ mergeNotes [{ id := "1", timestamp := 5 }] [{ id := "1", timestamp := 9 }],
        n.id = ({ id := "1", timestamp := 5 } : Note).id →
          n = { id := "1", timestamp := 9 }) ∧
     (({ id := "1", timestamp := 9 } : Note).timestamp
        ≤ ({ id := "1", timestamp := 5 } : Note).timestamp →
      ({ id := "1", timestamp := 5 } : Note) ∈
        mergeNotes [{ id := "1", timestamp := 5 }] [{ id := "1", timestamp := 9 }] ∧
      ∀ n ∈ mergeNotes [{ id := "1", timestamp := 5 }] [{ id := "1", timestamp := 9 }],
        n.id = ({ id := "1", timestamp := 5 } : Note).id →
          n = { id := "1", timestamp := 5 })) :=
  ⟨by decide, by decide, by decide, by decide, by decide,
   mergeNotes_collision_latest_wins
     [{ id := "1", timestamp := 5 }] [{ id := "1", timestamp := 9 }]
     { id := "1", timestamp := 5 } { id := "1", timestamp := 9 }
     (by decide) (by decide) (by decide) (by decide) (by decide)⟩

/-- C10: the output of `mergeNotes` never contains an id twice, and every
output note is drawn verbatim from one of the two input collections — the
merge never fabricates or field-combines notes. -/
theorem mergeNotes_unique_ids_and_provenance (L C : List Note) :
    ((mergeNotes L C).map Note.id).Nodup ∧
    ∀ n ∈ mergeNotes L C, n ∈ L ∨ n ∈ C := by
  refine ⟨mergeNotes_ids_nodup L C, ?_⟩
  intro n hn
  have hv : n ∈ mapValues (mergeMap L C) :=
    (mergeNotes_perm_values L C).subset hn
  unfold mergeMap at hv
  rcases mapValues_phase2_subset C _ n hv with h | h
  · rcases mapValues_phase1_subset L [] n h with h' | h'
    · simp [mapValues] at h'
    · exact Or.inl h'
  · exact Or.inr h

/-- C3: `mergeNotes` is idempotent: merging `X` with the result of merging
`X` and `Y` permutes (is set-equal to) the result of merging `X` and `Y`. -/
theorem mergeNotes_idempotent (X Y : List Note) :
    (mergeNotes X (mergeNotes X Y)).Perm (mergeNotes X Y) := by
  have hwf1 := mapWF_mergeMap X (mergeNotes X Y)
  have hwf2 := mapWF_mergeMap X Y
  have hget : ∀ i, mapGet (mergeMap X (mergeNotes X Y)) i
      = mapGet (mergeMap X Y) i := by
    intro i
    rw [mapGet_mergeMap, mapGet_mergeMap]
    cases hg : resolveChain (lastWithId X i) Y i with
    | none =>
      have hp := resolveChain_none Y (lastWithId X i) i hg
      have hfil : (mergeNotes X Y).filter (fun n => n.id == i) = [] := by
        rw [List.filter_eq_nil_iff]
        intro n hn hni
        have hni' : n.id = i := by simpa using hni
        have := (mem_mergeNotes_iff X Y n).mp hn
        rw [mapGet_mergeMap, hni', hg] at this
        simp at this
      rw [resolveChain_filter, hfil, hp]
      rfl
    | some w =>
      have hgw : mapGet (mergeMap X Y) i = some w := by
        rw [mapGet_mergeMap]; exact hg
      have hmem : (i, w) ∈ mergeMap X Y := mem_of_mapGet _ i w hgw
      have hwid : w.id = i := hwf2.2 (i, w) hmem
      have hwM : w ∈ mergeNotes X Y := by
        rw [mem_mergeNotes_iff, hwid]
        exact hgw
      have hfil : (mergeNotes X Y).filter (fun n => n.id == i) = [w] := by
        rw [← hwid]
        exact filter_id_singleton _ w hwM (mergeNotes_ids_nodup X Y)
      rw [resolveChain_filter, hfil]
      cases hp : lastWithId X i with
      | none => rfl
      | some x =>
        rw [hp] at hg
        rcases resolveChain_growth Y x w i hg with hwx | hlt
        · subst hwx
          simp [resolve]
        · simp [resolve, hlt]
  have hperm : (mergeMap X (mergeNotes X Y)).Perm (mergeMap X Y) :=
    noteMap_perm_of_get_eq _ _ hwf1 hwf2 hget
  have hv : (mapValues (mergeMap X (mergeNotes X Y))).Perm
      (mapValues (mergeMap X Y)) := by
    unfold mapValues
    exact hperm.map (fun p => p.2)
  exact ((mergeNotes_perm_values X (mergeNotes X Y)).trans hv).trans
    (mergeNotes_perm_values X Y).symm

/-! ### Sharding lemmas -/

theorem shardGo_flatten (size : Note → Nat) (base maxB : Nat) :
    ∀ (l cur : List Note) (sz : Nat),
      (shardGo size base maxB cur sz l).flatten = cur ++ l := by
  intro l
  induction l with
  | nil =>
    intro cur sz
    by_cases h : cur.isEmpty
    · have : cur = [] := List.isEmpty_iff.mp h
      simp [shardGo, h, this]
    · simp [shardGo, h]
  | cons n rest ih =>
    intro cur sz
    rw [shardGo]
    by_cases h : maxB < sz + size n + base ∧ ¬ cur.isEmpty
    · rw [if_pos h, List.flatten_cons, ih]
      simp
    · rw [if_neg h, ih]
      simp

theorem shardNotes_flatten (size : Note → Nat) (base maxB : Nat) (notes : List Note) :
    (shardNotes size base maxB notes).flatten = sortByTimestampDesc notes := by
  unfold shardNotes
  by_cases h : (shardGo size base maxB [] 0 (sortByTimestampDesc notes)).isEmpty
  · have he : shardGo size base maxB [] 0 (sortByTimestampDesc notes) = [] :=
      List.isEmpty_iff.mp h
    have hs := shardGo_flatten size base maxB (sortByTimestampDesc notes) [] 0
    rw [he] at hs
    simp only [List.flatten_nil, List.nil_append] at hs
    simp only [h, if_pos, ← hs]
    rfl
  · simp only [h, Bool.false_eq_true, if_neg, not_false_iff]
    simpa using shardGo_flatten size base maxB (sortByTimestampDesc notes) [] 0

theorem collectNotes_shardsToData (shards : List (List Note)) :
    collectNotes (shardsToData shards) = shards.flatten := by
  unfold collectNotes
  suffices h : ∀ (acc : List Note),
      (shardsToData shards).foldl (fun acc sd => match sd.notes with
        | some ns => acc ++ ns
        | none => acc) acc = acc ++ shards.flatten by
    simpa using h []
  induction shards with
  | nil => intro acc; simp [shardsToData]
  | cons s shards ih =>
    intro acc
    simp only [shardsToData, List.map_cons, List.foldl_cons, List.flatten_cons]
    have hih := ih (acc ++ s)
    simp only [shardsToData] at hih
    rw [hih, List.append_assoc]

theorem dedupGo_eq_self (l : List Note) :
    ∀ (seen : List String), (l.map Note.id).Nodup →
      (∀ n ∈ l, n.id ∉ seen) → dedupGo seen l = l := by
  induction l with
  | nil => intro seen _ _; rfl
  | cons n rest ih =>
    intro seen hnd hdis
    have hnd2 : (∀ x ∈ rest, ¬ x.id = n.id) ∧ (rest.map Note.id).Nodup := by
      simpa using hnd
    have hn : n.id ∉ seen := hdis n (List.mem_cons_self n rest)
    simp only [dedupGo, hn, if_neg, not_false_iff]
    rw [ih (n.id :: seen) hnd2.2]
    intro m hm
    simp only [List.mem_cons, not_or]
    exact ⟨hnd2.1 m hm, hdis m (List.mem_cons_of_mem n hm)⟩

theorem dedupById_eq_self (l : List Note) (h : (l.map Note.id).Nodup) :
    dedupById l = l :=
  dedupGo_eq_self l [] h (by simp)

/-! ### Claim theorems: sharding -/

/-- C1: sharding a collection with unique note ids and recombining the
shards (wrapped as payloads, in index order) with `mergeShards` yields a
permutation of the original collection: every note appears exactly once. -/
theorem shard_combine_roundtrip (size : Note → Nat) (base maxB : Nat)
    (notes : List Note) (h : (notes.map Note.id).Nodup) :
    ((mergeShards (shardsToData (shardNotes size base maxB notes))).notes).Perm
      notes := by
  have hsorted : (sortByTimestampDesc notes).Perm notes :=
    List.perm_insertionSort _ notes
  have hnotes : (mergeShards (shardsToData (shardNotes size base maxB notes))).notes
      = dedupById (sortByTimestampDesc notes) := by
    show dedupById (collectNotes (shardsToData (shardNotes size base maxB notes)))
      = dedupById (sortByTimestampDesc notes)
    rw [collectNotes_shardsToData, shardNotes_flatten]
  have hnd : ((sortByTimestampDesc notes).map Note.id).Nodup :=
    (hsorted.map Note.id).nodup_iff.mpr h
  rw [hnotes, dedupById_eq_self _ hnd]
  exact hsorted

/-- Witness for C1 at a concrete two-note collection with distinct ids and a
small shard limit that forces two shards. -/
theorem shard_combine_roundtrip_witness :
    (([({ id := "1", content := "aaaa", timestamp := 2 } : Note),
       { id := "2", content := "bbbb", timestamp := 1 }].map Note.id).Nodup) ∧
    ((mergeShards (shardsToData (shardNotes (fun n => n.content.length) 0 5
        [{ id := "1", content := "aaaa", timestamp := 2 },
         { id := "2", content := "bbbb", timestamp := 1 }]))).notes).Perm
      [{ id := "1", content := "aaaa", timestamp := 2 },
       { id := "2", content := "bbbb", timestamp := 1 }] :=
  ⟨by decide,
   shard_combine_roundtrip (fun n => n.content.length) 0 5
     [{ id := "1", content := "aaaa", timestamp := 2 },
      { id := "2", content := "bbbb", timestamp := 1 }] (by decide)⟩

theorem shardGo_filter_not_mem (size : Note → Nat) (base maxB : Nat) (x : Note) :
    ∀ (l cur : List Note) (sz : Nat), x ∉ cur → l.count x = 0 →
      (shardGo size base maxB cur sz l).filter (fun s => decide (x ∈ s)) = [] := by
  intro l
  induction l with
  | nil =>
    intro cur sz hcur _
    by_cases h : cur.isEmpty
    · simp [shardGo, h]
    · simp [shardGo, h, hcur]
  | cons n rest ih =>
    intro cur sz hcur hc
    have hc2 : n ≠ x ∧ rest.count x = 0 := by
      constructor
      · intro he
        rw [List.count_cons] at hc
        simp [he] at hc
      · rw [List.count_cons] at hc
        omega
    rw [shardGo]
    by_cases h : maxB < sz + size n + base ∧ ¬ cur.isEmpty
    · rw [if_pos h, List.filter_cons]
      have hcf : decide (x ∈ cur) = false := by simp [hcur]
      rw [hcf]
      simp only [Bool.false_eq_true, if_neg, not_false_iff]
      exact ih [n] (size n) (by simp [Ne.symm hc2.1]) hc2.2
    · rw [if_neg h]
      refine ih (cur ++ [n]) (sz + size n) ?_ hc2.2
      simp [hcur, Ne.symm hc2.1]

theorem shardGo_filter_after_big (size : Note → Nat) (base maxB : Nat) (x : Note)
    (hbig : maxB < size x) :
    ∀ (rest : List Note) (sz : Nat), size x ≤ sz → rest.count x = 0 →
      (shardGo size base maxB [x] sz rest).filter (fun s => decide (x ∈ s))
        = [[x]] := by
  intro rest
  induction rest with
  | nil =>
    intro sz _ _
    simp [shardGo]
  | cons m r ih =>
    intro sz hsz hc
    have hc2 : m ≠ x ∧ r.count x = 0 := by
      constructor
      · intro he
        rw [List.count_cons] at hc
        simp [he] at hc
      · rw [List.count_cons] at hc
        omega
    have hcond : maxB < sz + size m + base ∧ ¬ ([x] : List Note).isEmpty := by
      refine ⟨lt_of_lt_of_le hbig (le_trans hsz (by omega)), by simp⟩
    rw [shardGo, if_pos hcond, List.filter_cons]
    have hx : decide (x ∈ ([x] : List Note)) = true := by simp
    rw [hx]
    simp only [if_pos]
    rw [shardGo_filter_not_mem size base maxB x r [m] (size m)
      (by simp [Ne.symm hc2.1]) hc2.2]

theorem shardGo_filter_count_one (size : Note → Nat) (base maxB : Nat) (x : Note)
    (hbig : maxB < size x) :
    ∀ (l cur : List Note) (sz : Nat), x ∉ cur → l.count x = 1 →
      (shardGo size base maxB cur sz l).filter (fun s => decide (x ∈ s))
        = [[x]] := by
  intro l
  induction l with
  | nil =>
    intro cur sz _ hc
    simp at hc
  | cons n rest ih =>
    intro cur sz hcur hc
    by_cases hn : n = x
    · subst hn
      have hc0 : rest.count n = 0 := by
        rw [List.count_cons] at hc
        simp at hc
        omega
      rw [shardGo]
      by_cases h : maxB < sz + size n + base ∧ ¬ cur.isEmpty
      · rw [if_pos h, List.filter_cons]
        have hcf : decide (n ∈ cur) = false := by simp [hcur]
        rw [hcf]
        simp only [Bool.false_eq_true, if_neg, not_false_iff]
        exact shardGo_filter_after_big size base maxB n hbig rest (size n)
          (le_refl _) hc0
      · rw [if_neg h]
        have hA : maxB < sz + size n + base :=
          lt_of_lt_of_le hbig (by omega)
        have hcur0 : cur = [] := by
          by_contra hne
          exact h ⟨hA, by simpa [List.isEmpty_iff] using hne⟩
        subst hcur0
        simp only [List.nil_append]
        exact shardGo_filter_after_big size base maxB n hbig rest (sz + size n)
          (by omega) hc0
    · have hc1 : rest.count x = 1 := by
        rw [List.count_cons] at hc
        simpa [hn] using hc
      rw [shardGo]
      by_cases h : maxB < sz + size n + base ∧ ¬ cur.isEmpty
      · rw [if_pos h, List.filter_cons]
        have hcf : decide (x ∈ cur) = false := by simp [hcur]
        rw [hcf]
        simp only [Bool.false_eq_true, if_neg, not_false_iff]
        exact ih [n] (size n) (by simp [Ne.symm hn]) hc1
      · rw [if_neg h]
        refine ih (cur ++ [n]) (sz + size n) ?_ hc1
        simp [hcur, Ne.symm hn]

/-- C7: a note whose estimated serialized size alone exceeds the per-shard
byte limit, occurring once in the collection (ids — and hence notes — are
unique per the data model), ends up in exactly one shard, and that shard
contains only that note. -/
theorem oversized_note_own_shard (size : Note → Nat) (base maxB : Nat)
    (notes : List Note) (x : Note)
    (hbig : maxB < size x) (hcount : notes.count x = 1) :
    (shardNotes size base maxB notes).filter (fun s => decide (x ∈ s))
      = [[x]] := by
  have hsorted : (sortByTimestampDesc notes).count x = 1 := by
    unfold sortByTimestampDesc
    rw [(List.perm_insertionSort _ notes).count_eq]
    exact hcount
  have hmain := shardGo_filter_count_one size base maxB x hbig
    (sortByTimestampDesc notes) [] 0 (by simp) hsorted
  unfold shardNotes
  by_cases h : (shardGo size base maxB [] 0 (sortByTimestampDesc notes)).isEmpty
  · exfalso
    rw [List.isEmpty_iff.mp h] at hmain
    simp at hmain
  · simp only [h, Bool.false_eq_true, if_neg, not_false_iff]
    exact hmain

/-- Witness for C7: with a 5-byte limit and a 6-byte note, sharding a
two-note collection isolates the oversized note in its own shard. -/
theorem oversized_note_own_shard_witness :
    ((5 : Nat) < (fun n => n.content.length) ({ id := "1", content := "abcdef", timestamp := 9 } : Note)) ∧
    (([({ id := "1", content := "abcdef", timestamp := 9 } : Note),
       { id := "2", content := "ab", timestamp := 1 }].count
        ({ id := "1", content := "abcdef", timestamp := 9 } : Note)) = 1) ∧
    ((shardNotes (fun n => n.content.length) 0 5
        [{ id := "1", content := "abcdef", timestamp := 9 },
         { id := "2", content := "ab", timestamp := 1 }]).filter
      (fun s => decide (({ id := "1", content := "abcdef", timestamp := 9 } : Note) ∈ s))
        = [[{ id := "1", content := "abcdef", timestamp := 9 }]]) :=
  ⟨by decide, by decide,
   oversized_note_own_shard (fun n => n.content.length) 0 5
     [{ id := "1", content := "abcdef", timestamp := 9 },
      { id := "2", content := "ab", timestamp := 1 }]
     { id := "1", content := "abcdef", timestamp := 9 }
     (by decide) (by decide)⟩

/-! ### Shard-combination configuration fields -/

theorem charListLtb_irrefl (l : List Char) : charListLtb l l = false := by
  induction l with
  | nil => rfl
  | cons a as ih => simp [charListLtb, lt_irrefl, ih]

theorem charListLtb_trans (l1 : List Char) :
    ∀ (l2 l3 : List Char), charListLtb l1 l2 = true → charListLtb l2 l3 = true →
      charListLtb l1 l3 = true := by
  induction l1 with
  | nil =>
    intro l2 l3 h1 h2
    cases l3 with
    | nil => cases l2 <;> simp [charListLtb] at h1 h2
    | cons c cs => simp [charListLtb]
  | cons a as ih =>
    intro l2 l3 h1 h2
    cases l2 with
    | nil => simp [charListLtb] at h1
    | cons b bs =>
      cases l3 with
      | nil => simp [charListLtb] at h2
      | cons c cs =>
        simp only [charListLtb] at h1 h2 ⊢
        by_cases hab : a < b
        · by_cases hbc : b < c
          · simp [lt_trans hab hbc]
          · by_cases hcb : c < b
            · simp [hab, hbc, hcb] at h2
            · have hbceq : b = c := le_antisymm (le_of_not_lt hcb) (le_of_not_lt hbc)
              simp [hbceq ▸ hab]
        · by_cases hba : b < a
          · simp [hab, hba] at h1
          · have habeq : a = b := le_antisymm (le_of_not_lt hba) (le_of_not_lt hab)
            simp only [hab, if_neg, hba, not_false_iff, if_false] at h1
            by_cases hbc : b < c
            · simp [habeq ▸ hbc]
            · by_cases hcb : c < b
              · simp [hbc, hcb] at h2
              · have hbceq : b = c := le_antisymm (le_of_not_lt hcb) (le_of_not_lt hbc)
                have hac : ¬ a < c := hbceq ▸ habeq ▸ lt_irrefl a
                have hca : ¬ c < a := hbceq ▸ habeq ▸ lt_irrefl a
                simp only [hbc, if_neg, hcb, not_false_iff, if_false] at h2
                simp only [hac, if_neg, hca, not_false_iff, if_false]
                exact ih bs cs (by simpa using h1) (by simpa using h2)

theorem strLtb_irrefl (a : String) : strLtb a a = false :=
  charListLtb_irrefl a.data

theorem strLtb_trans (a b c : String) (h1 : strLtb a b = true)
    (h2 : strLtb b c = true) : strLtb a c = true :=
  charListLtb_trans a.data b.data c.data h1 h2

theorem strLtb_asymm (a b : String) (h1 : strLtb a b = true) :
    strLtb b a = false := by
  by_contra h2
  have h2' : strLtb b a = true := by simpa using h2
  have := strLtb_trans a b a h1 h2'
  rw [strLtb_irrefl a] at this
  exact Bool.false_ne_true this

theorem lastTags_eq (l : List ShardData) :
    lastTags l = (l.reverse.findSome? (fun sd => sd.customTags)).getD [] := by
  unfold lastTags
  suffices h : ∀ (acc : List CustomTag),
      l.foldl (fun acc sd => match sd.customTags with
        | some t => t
        | none => acc) acc
        = (l.reverse.findSome? (fun sd => sd.customTags)).getD acc from h []
  induction l with
  | nil => intro acc; rfl
  | cons sd rest ih =>
    intro acc
    simp only [List.foldl_cons, List.reverse_cons, List.findSome?_append]
    rw [ih]
    cases hg : rest.reverse.findSome? (fun sd => sd.customTags) with
    | some v => simp
    | none =>
      cases hf : sd.customTags with
      | some t => simp [hf, List.findSome?]
      | none => simp [hf, List.findSome?]

theorem lastColors_eq (l : List ShardData) :
    lastColors l = (l.reverse.findSome? (fun sd => sd.tagColors)).getD [] := by
  unfold lastColors
  suffices h : ∀ (acc : List (String × Nat)),
      l.foldl (fun acc sd => match sd.tagColors with
        | some t => t
        | none => acc) acc
        = (l.reverse.findSome? (fun sd => sd.tagColors)).getD acc from h []
  induction l with
  | nil => intro acc; rfl
  | cons sd rest ih =>
    intro acc
    simp only [List.foldl_cons, List.reverse_cons, List.findSome?_append]
    rw [ih]
    cases hg : rest.reverse.findSome? (fun sd => sd.tagColors) with
    | some v => simp
    | none =>
      cases hf : sd.tagColors with
      | some t => simp [hf, List.findSome?]
      | none => simp [hf, List.findSome?]

/-- The non-empty `syncTime` values the shards actually carry (a `""` string
is falsy in JS and ignored by `mergeShards`). -/
def presentSyncTimes (l : List ShardData) : List String :=
  (l.filterMap (fun sd => sd.syncTime)).filter (fun s => !(s == ""))

theorem latestSync_filterMap (l : List ShardData) :
    ∀ (o : Option String),
      l.foldl (fun cur sd => updateSyncTime cur sd.syncTime) o
        = (l.filterMap (fun sd => sd.syncTime)).foldl
            (fun cur s => updateSyncTime cur (some s)) o := by
  induction l with
  | nil => intro o; rfl
  | cons sd rest ih =>
    intro o
    cases hf : sd.syncTime with
    | none =>
      simp only [List.foldl_cons, hf, List.filterMap_cons]
      rw [show updateSyncTime o none = o from rfl]
      exact ih o
    | some s =>
      simp only [List.foldl_cons, hf, List.filterMap_cons]
      exact ih (updateSyncTime o (some s))

theorem strFold_filter_empty (xs : List String) :
    ∀ (o : Option String),
      xs.foldl (fun cur s => updateSyncTime cur (some s)) o
        = (xs.filter (fun s => !(s == ""))).foldl
            (fun cur s => updateSyncTime cur (some s)) o := by
  induction xs with
  | nil => intro o; rfl
  | cons x xs ih =>
    intro o
    by_cases hx : x = ""
    · have h1 : updateSyncTime o (some x) = o := by simp [updateSyncTime, hx]
      have h2 : (!(x == "")) = false := by simp [hx]
      simp only [List.foldl_cons, List.filter_cons, h2, Bool.false_eq_true,
        if_neg, not_false_iff, h1]
      exact ih o
    · have h2 : (!(x == "")) = true := by simp [hx]
      simp only [List.foldl_cons, List.filter_cons, h2, if_pos]
      exact ih (updateSyncTime o (some x))

theorem latestSync_eq_fold (l : List ShardData) :
    latestSync l = (presentSyncTimes l).foldl
      (fun cur s => updateSyncTime cur (some s)) none := by
  unfold latestSync presentSyncTimes
  rw [latestSync_filterMap, strFold_filter_empty]

theorem strFold_some (xs : List String) :
    ∀ (c : String), (∀ s ∈ xs, s ≠ "") →
      ∃ v, xs.foldl (fun cur s => updateSyncTime cur (some s)) (some c) = some v ∧
        (v = c ∨ (strLtb c v = true ∧ v ∈ xs)) ∧
        strLtb v c = false ∧ (∀ s ∈ xs, strLtb v s = false) := by
  induction xs with
  | nil =>
    intro c _
    exact ⟨c, rfl, Or.inl rfl, strLtb_irrefl c, by simp⟩
  | cons x xs ih =>
    intro c hne
    have hx : x ≠ "" := hne x (List.mem_cons_self x xs)
    have hstep : updateSyncTime (some c) (some x)
        = if strLtb c x then some x else some c := by
      simp [updateSyncTime, hx]
    by_cases hcx : strLtb c x = true
    · rcases ih x (fun s hs => hne s (List.mem_cons_of_mem x hs)) with
        ⟨v, hv, hvm, hvx, hvb⟩
      refine ⟨v, ?_, ?_, ?_, ?_⟩
      · simp only [List.foldl_cons, hstep, hcx, if_pos]
        exact hv
      · rcases hvm with hvm | hvm
        · exact Or.inr ⟨hvm ▸ hcx, hvm ▸ List.mem_cons_self x xs⟩
        · exact Or.inr ⟨strLtb_trans c x v hcx hvm.1,
            List.mem_cons_of_mem x hvm.2⟩
      · by_contra hvc
        have hvc' : strLtb v c = true := by simpa using hvc
        rcases hvm with hvm | hvm
        · rw [hvm] at hvc'
          rw [strLtb_asymm c x hcx] at hvc'
          exact Bool.false_ne_true hvc'
        · have := strLtb_trans x v c hvm.1 hvc'
          rw [strLtb_asymm c x hcx] at this
          exact Bool.false_ne_true this
      · intro s hs
        rcases List.mem_cons.mp hs with hs | hs
        · exact hs ▸ hvx
        · exact hvb s hs
    · have hcxf : strLtb c x = false := by simpa using hcx
      rcases ih c (fun s hs => hne s (List.mem_cons_of_mem x hs)) with
        ⟨v, hv, hvm, hvc, hvb⟩
      refine ⟨v, ?_, ?_, hvc, ?_⟩
      · simp only [List.foldl_cons, hstep, hcxf, Bool.false_eq_true, if_neg,
          not_false_iff]
        exact hv
      · rcases hvm with hvm | hvm
        · exact Or.inl hvm
        · exact Or.inr ⟨hvm.1, List.mem_cons_of_mem x hvm.2⟩
      · intro s hs
        rcases List.mem_cons.mp hs with hs | hs
        · subst hs
          by_contra hvs
          have hvs' : strLtb v s = true := by simpa using hvs
          rcases hvm with hvm | hvm
          · rw [hvm] at hvs'
            rw [hcxf] at hvs'
            exact Bool.false_ne_true hvs'
          · have := strLtb_trans c v s hvm.1 hvs'
            rw [hcxf] at this
            exact Bool.false_ne_true this
        · exact hvb s hs

theorem presentSyncTimes_ne_empty (l : List ShardData) :
    ∀ s ∈ presentSyncTimes l, s ≠ "" := by
  intro s hs
  unfold presentSyncTimes at hs
  have := List.of_mem_filter hs
  simpa using this

theorem latestSync_max (l : List ShardData) :
    (latestSync l = none ↔ presentSyncTimes l = []) ∧
    (∀ v, latestSync l = some v →
      v ∈ presentSyncTimes l ∧ ∀ s ∈ presentSyncTimes l, strLtb v s = false) := by
  rw [latestSync_eq_fold]
  have hne := presentSyncTimes_ne_empty l
  cases hps : presentSyncTimes l with
  | nil => simp
  | cons s rest =>
    rw [hps] at hne
    have hs : s ≠ "" := hne s (List.mem_cons_self s rest)
    have hstep : updateSyncTime none (some s) = some s := by
      simp [updateSyncTime, hs]
    rcases strFold_some rest s (fun t ht => hne t (List.mem_cons_of_mem s ht)) with
      ⟨v, hv, hvm, hvs, hvb⟩
    constructor
    · constructor
      · intro h
        simp only [List.foldl_cons, hstep] at h
        rw [hv] at h
        exact absurd h (by simp)
      · intro h
        exact absurd h (by simp)
    · intro w hw
      simp only [List.foldl_cons, hstep] at hw
      rw [hv] at hw
      have hwv : w = v := (Option.some.inj hw).symm
      subst hwv
      constructor
      · rcases hvm with hvm | hvm
        · exact hvm ▸ List.mem_cons_self s rest
        · exact List.mem_cons_of_mem s hvm.2
      · intro t ht
        rcases List.mem_cons.mp ht with ht | ht
        · exact ht ▸ hvs
        · exact hvb t ht

/-! ### Claim theorems: shard-combination configuration fields -/

/-- C4 (amended): in `mergeShards`, `customTags` and `tagColors` are
last-present-wins — each equals the value of the last shard carrying the
field (or the empty default when none does), so absence never erases an
adopted value.  `syncTime`, however, is not last-wins: the combined value is
the greatest (string-compared) non-empty `syncTime` carried by any shard. -/
theorem mergeShards_config_fields (l : List ShardData) :
    (mergeShards l).customTags
        = (l.reverse.findSome? (fun sd => sd.customTags)).getD [] ∧
    (mergeShards l).tagColors
        = (l.reverse.findSome? (fun sd => sd.tagColors)).getD [] ∧
    ((mergeShards l).syncTime = none ↔ presentSyncTimes l = []) ∧
    (∀ v, (mergeShards l).syncTime = some v →
      v ∈ presentSyncTimes l ∧ ∀ s ∈ presentSyncTimes l, strLtb v s = false) := by
  refine ⟨lastTags_eq l, lastColors_eq l, ?_, ?_⟩
  · exact (latestSync_max l).1
  · exact (latestSync_max l).2

/-- Counterexample for C4 as stated: with two shards whose `syncTime`s are
`"b"` then `"a"`, the last shard carrying `syncTime` holds `"a"`, but
`mergeShards` keeps the maximum `"b"` — the combined `syncTime` is not the
last shard's value. -/
theorem mergeShards_syncTime_not_last :
    (([({ syncTime := some "b" } : ShardData), { syncTime := some "a" }]).reverse.findSome?
        (fun sd => sd.syncTime)) = some "a" ∧
    (mergeShards [({ syncTime := some "b" } : ShardData), { syncTime := some "a" }]).syncTime
        = some "b" ∧
    (mergeShards [({ syncTime := some "b" } : ShardData), { syncTime := some "a" }]).syncTime
        ≠ (([({ syncTime := some "b" } : ShardData), { syncTime := some "a" }]).reverse.findSome?
            (fun sd => sd.syncTime)) :=
  ⟨by decide, by decide, by decide⟩

/-! ### Claim theorems: download paths -/

/-- C5 (amended): only the sharded-gist variant's download reconciles the
remote notes with the local ones through `mergeNotes` before saving — and in
particular it keeps every local note whose id no remote note carries (given
the data model's unique local ids).  The WebDAV and legacy single-file
variants save the remote notes wholesale, replacing the local collection. -/
theorem syncDown_merge_only_in_gist_variant (localNotes ns : List Note)
    (remote : RemoteData) (hn : remote.notes = some ns)
    (hL : (localNotes.map Note.id).Nodup) :
    gistDownSavedNotes localNotes remote = mergeNotes localNotes ns ∧
    (∀ a ∈ localNotes, (∀ b ∈ ns, b.id ≠ a.id) →
      a ∈ gistDownSavedNotes localNotes remote) ∧
    webdavDownSavedNotes localNotes remote = ns ∧
    legacyDownSavedNotes localNotes remote = ns := by
  refine ⟨by simp [gistDownSavedNotes, hn], ?_,
    by simp [webdavDownSavedNotes, hn], by simp [legacyDownSavedNotes, hn]⟩
  intro a ha hnone
  have hmerge : gistDownSavedNotes localNotes remote = mergeNotes localNotes ns := by
    simp [gistDownSavedNotes, hn]
  rw [hmerge, mem_mergeNotes_iff, mapGet_mergeMap,
    lastWithId_of_mem_nodup localNotes a ha hL, resolveChain_filter]
  have hfil : ns.filter (fun n => n.id == a.id) = [] := by
    rw [List.filter_eq_nil_iff]
    intro b hb hba
    exact hnone b hb (by simpa using hba)
  rw [hfil]
  rfl

/-- Witness for C5 (amended) at concrete inputs: one local and one disjoint
remote note. -/
theorem syncDown_merge_only_in_gist_variant_witness :
    (({ notes := some [{ id := "2", timestamp := 3 }] } : RemoteData).notes
        = some [{ id := "2", timestamp := 3 }]) ∧
    (([({ id := "1", timestamp := 5 } : Note)].map Note.id).Nodup) ∧
    (gistDownSavedNotes [{ id := "1", timestamp := 5 }]
        { notes := some [{ id := "2", timestamp := 3 }] }
      = mergeNotes [{ id := "1", timestamp := 5 }] [{ id := "2", timestamp := 3 }] ∧
    (∀ a ∈ [({ id := "1", timestamp := 5 } : Note)],
      (∀ b ∈ [({ id := "2", timestamp := 3 } : Note)], b.id ≠ a.id) →
        a ∈ gistDownSavedNotes [{ id := "1", timestamp := 5 }]
          { notes := some [{ id := "2", timestamp := 3 }] }) ∧
    webdavDownSavedNotes [{ id := "1", timestamp := 5 }]
        { notes := some [{ id := "2", timestamp := 3 }] }
      = [{ id := "2", timestamp := 3 }] ∧
    legacyDownSavedNotes [{ id := "1", timestamp := 5 }]
        { notes := some [{ id := "2", timestamp := 3 }] }
      = [{ id := "2", timestamp := 3 }]) :=
  ⟨by decide, by decide,
   syncDown_merge_only_in_gist_variant [{ id := "1", timestamp := 5 }]
     [{ id := "2", timestamp := 3 }]
     { notes := some [{ id := "2", timestamp := 3 }] } (by decide) (by decide)⟩

/-- Counterexample for C5 as stated: the WebDAV download saves the remote
notes wholesale — the local-only note is discarded and the saved collection
is not the merge of local and remote. -/
theorem webdav_download_replaces_wholesale :
    webdavDownSavedNotes [{ id := "1", timestamp := 5 }]
        { notes := some [{ id := "2", timestamp := 3 }] }
      = [{ id := "2", timestamp := 3 }] ∧
    ({ id := "1", timestamp := 5 } : Note) ∉
      webdavDownSavedNotes [{ id := "1", timestamp := 5 }]
        { notes := some [{ id := "2", timestamp := 3 }] } ∧
    webdavDownSavedNotes [{ id := "1", timestamp := 5 }]
        { notes := some [{ id := "2", timestamp := 3 }] }
      ≠ mergeNotes [{ id := "1", timestamp := 5 }] [{ id := "2", timestamp := 3 }] :=
  ⟨by decide, by decide, by decide⟩

/-- C6 evaluated at its failing input: the sharded-gist download "union" of
custom tags keeps both the local and the remote definition of the same tag
name (the JS `Set` dedups by object identity, never by name), so the saved
collection carries the name `"#a"` twice; and the WebDAV download discards
the local tag definitions wholesale. -/
theorem customTags_union_not_keyed_by_name :
    gistDownSavedTags [{ id := "1", name := "#a" }]
        { customTags := some [{ id := "2", name := "#a" }] }
      = [{ id := "1", name := "#a" }, { id := "2", name := "#a" }] ∧
    ((gistDownSavedTags [{ id := "1", name := "#a" }]
        { customTags := some [{ id := "2", name := "#a" }] }).map
      (fun t => t.name)).count "#a" = 2 ∧
    webdavDownSavedTags [{ id := "1", name := "#a" }]
        { customTags := some [{ id := "2", name := "#b" }] }
      = [{ id := "2", name := "#b" }] :=
  ⟨by decide, by decide, by decide⟩

/-! ### Claim theorems: result contract -/

theorem append3_ne_empty (s t u : String) (hs : s.length ≠ 0) :
    s ++ t ++ u ≠ "" := by
  intro h
  have hl := congrArg String.length h
  rw [String.length_append, String.length_append] at hl
  have h2 : ("" : String).length = 0 := rfl
  rw [h2] at hl
  omega

theorem append2_ne_empty (s t : String) (hs : s.length ≠ 0) :
    s ++ t ≠ "" := by
  intro h
  have hl := congrArg String.length h
  rw [String.length_append] at hl
  have h2 : ("" : String).length = 0 := rfl
  rw [h2] at hl
  omega

/-- C9: every public sync operation of every backend variant returns a
`{success, message}` record for every input: each error thrown inside the
operation (network, parse, remote rejection) is caught and mapped to a
`success = false` record carrying the error's message, success paths return
`success = true` with a non-empty message, non-2xx WebDAV statuses map to
dedicated failure messages, and no exception ever escapes (the embedded
operations are total functions into `SyncResult`). -/
theorem sync_operations_result_contract :
    (∀ (ln : List Note) (gid : Option String) (fetch : Except String RemoteData)
        (size : Note → Nat) (base maxB sb : Nat) (e : String),
      gistSyncUp ln gid fetch (.error e) size base maxB sb
        = { success := false, message := e }) ∧
    (∀ (ln : List Note) (gid : Option String) (fetch : Except String RemoteData)
        (size : Note → Nat) (base maxB sb : Nat),
      (gistSyncUp ln gid fetch (.ok ()) size base maxB sb).success = true ∧
      (gistSyncUp ln gid fetch (.ok ()) size base maxB sb).message ≠ "") ∧
    (∀ (c : Nat) (e : String),
      gistSyncDown c (.error e) = { success := false, message := e }) ∧
    (∀ (c : Nat) (r : RemoteData),
      (gistSyncDown c (.ok r)).success = true ∧
      (gistSyncDown c (.ok r)).message ≠ "") ∧
    (∀ (sb : Nat) (resp : Except String Nat),
      webdavSyncUp false sb resp
        = { success := false, message := "未配置 WebDAV 连接" }) ∧
    (∀ (sb : Nat) (e : String),
      webdavSyncUp true sb (.error e) = { success := false, message := e }) ∧
    (∀ (sb st : Nat),
      (webdavSyncUp true sb (.ok st)).message ≠ "" ∧
      ((webdavSyncUp true sb (.ok st)).success = true ↔
        ((200 ≤ st ∧ st < 300) ∨ st = 201 ∨ st = 204))) ∧
    (∀ (resp : Except String Nat),
      webdavSyncDown false resp
        = { success := false, message := "未配置 WebDAV 连接" }) ∧
    (∀ (e : String),
      webdavSyncDown true (.error e) = { success := false, message := e }) ∧
    (∀ (st : Nat),
      (webdavSyncDown true (.ok st)).message ≠ "" ∧
      ((webdavSyncDown true (.ok st)).success = true ↔ (200 ≤ st ∧ st < 300))) ∧
    (∀ (e : String), legacySyncUp (.error e) = { success := false, message := e }) ∧
    (legacySyncUp (.ok ()) = { success := true, message := "上传成功！" }) ∧
    (∀ (e : String), legacySyncDown (.error e) = { success := false, message := e }) ∧
    (∀ (r : RemoteData),
      legacySyncDown (.ok r) = { success := true, message := "下载成功！" }) := by
  refine ⟨fun ln gid fetch size base maxB sb e => rfl, ?_,
    fun c e => rfl, ?_, fun sb resp => rfl, fun sb e => rfl, ?_,
    fun resp => rfl, fun e => rfl, ?_,
    fun e => rfl, rfl, fun e => rfl, fun r => rfl⟩
  · intro ln gid fetch size base maxB sb
    refine ⟨rfl, ?_⟩
    show ("上传成功！" ++ _) ≠ ""
    exact append2_ne_empty _ _ (by decide)
  · intro c r
    refine ⟨rfl, ?_⟩
    show ("合并成功！共 " ++ toString c ++ " 条笔记") ≠ ""
    exact append3_ne_empty _ _ _ (by decide)
  · intro sb st
    constructor
    · by_cases h1 : (200 ≤ st ∧ st < 300) ∨ st = 201 ∨ st = 204
      · simp [webdavSyncUp, h1]
      · by_cases h2 : st = 401
        · subst h2
          simp [webdavSyncUp]
        · by_cases h3 : st = 507
          · subst h3
            simp [webdavSyncUp]
          · simp only [webdavSyncUp, h1, h2, h3, Bool.not_true,
              Bool.false_eq_true, if_neg, not_false_iff]
            exact append3_ne_empty _ _ _ (by decide)
    · by_cases h1 : (200 ≤ st ∧ st < 300) ∨ st = 201 ∨ st = 204
      · simp [webdavSyncUp, h1]
      · by_cases h2 : st = 401
        · simp [webdavSyncUp, h1, h2]
        · by_cases h3 : st = 507
          · simp [webdavSyncUp, h1, h2, h3]
          · simp [webdavSyncUp, h1, h2, h3]
  · intro st
    constructor
    · by_cases h1 : 200 ≤ st ∧ st < 300
      · simp [webdavSyncDown, h1]
      · by_cases h2 : st = 404
        · subst h2
          simp [webdavSyncDown]
        · by_cases h3 : st = 401
          · subst h3
            simp [webdavSyncDown]
          · simp only [webdavSyncDown, h1, h2, h3, Bool.not_true,
              Bool.false_eq_true, if_neg, not_false_iff]
            exact append3_ne_empty _ _ _ (by decide)
    · by_cases h1 : 200 ≤ st ∧ st < 300
      · simp [webdavSyncDown, h1]
      · by_cases h2 : st = 404
        · simp [webdavSyncDown, h1, h2]
        · by_cases h3 : st = 401
          · simp [webdavSyncDown, h1, h2, h3]
          · simp [webdavSyncDown, h1, h2, h3]

/-! ### Scheduler lemmas -/

/-- The stored `insight_sync_interval` after `setSyncInterval` persists a new
value (the configuration part only, before any restart). -/
def withInterval (i : Nat) (s : SchedulerState) : SchedulerState :=
  { s with intervalMinutes := i }

theorem filter_ne_of_map_fst_singleton (l : List (Nat × Nat)) (t : Nat)
    (h : l.map Prod.fst = [t]) : l.filter (fun p => p.1 != t) = [] := by
  cases l with
  | nil => simp at h
  | cons x rest =>
    cases rest with
    | nil =>
      have hx : x.1 = t := by simpa using h
      simp [List.filter_cons, hx]
    | cons y rest2 => simp at h

theorem stopAutoSync_clears (s : SchedulerState) (h : SchedInv s) :
    (stopAutoSync s).activeTimers = [] ∧
    (stopAutoSync s).autoSyncTimer = none ∧
    SchedInv (stopAutoSync s) := by
  unfold SchedInv at h
  cases ht : s.autoSyncTimer with
  | none =>
    rw [ht] at h
    refine ⟨?_, ?_, ?_⟩ <;> simp [stopAutoSync, ht, h, SchedInv]
  | some t =>
    rw [ht] at h
    have hf := filter_ne_of_map_fst_singleton s.activeTimers t h
    refine ⟨?_, ?_, ?_⟩ <;> simp [stopAutoSync, ht, hf, SchedInv]

theorem stopAutoSync_preserves (s : SchedulerState) :
    (stopAutoSync s).enabled = s.enabled ∧
    (stopAutoSync s).connected = s.connected ∧
    (stopAutoSync s).intervalMinutes = s.intervalMinutes ∧
    (stopAutoSync s).nextTimerId = s.nextTimerId := by
  cases ht : s.autoSyncTimer <;> simp [stopAutoSync, ht]

theorem startAutoSync_spec (s : SchedulerState) (h : SchedInv s) :
    SchedInv (startAutoSync s) ∧
    (s.enabled = true → s.connected = true →
      (startAutoSync s).activeTimers
        = [(s.nextTimerId, s.intervalMinutes * 60 * 1000)] ∧
      (startAutoSync s).autoSyncTimer = some s.nextTimerId) := by
  have hstop := stopAutoSync_clears s h
  have hpres := stopAutoSync_preserves s
  unfold startAutoSync
  by_cases hc : (stopAutoSync s).enabled && (stopAutoSync s).connected
  · rw [if_pos hc]
    refine ⟨?_, fun _ _ => ?_⟩
    · unfold SchedInv
      simp [hstop.1]
    · simp [hstop.1, hpres.2.2.1, hpres.2.2.2]
  · rw [if_neg hc]
    refine ⟨hstop.2.2, fun he hcon => ?_⟩
    exfalso
    rw [hpres.1, hpres.2.1] at hc
    simp [he, hcon] at hc

theorem startAutoSync_preserves (s : SchedulerState) :
    (startAutoSync s).enabled = s.enabled ∧
    (startAutoSync s).connected = s.connected := by
  have hpres := stopAutoSync_preserves s
  unfold startAutoSync
  by_cases hc : (stopAutoSync s).enabled && (stopAutoSync s).connected
  · rw [if_pos hc]
    exact ⟨hpres.1, hpres.2.1⟩
  · rw [if_neg hc]
    exact ⟨hpres.1, hpres.2.1⟩

theorem schedInv_applyOp (op : SchedOp) (s : SchedulerState) (h : SchedInv s) :
    SchedInv (applySchedOp op s) := by
  cases op with
  | start => exact (startAutoSync_spec s h).1
  | stop => exact (stopAutoSync_clears s h).2.2
  | setEnabled b =>
    show SchedInv (setAutoSyncEnabled b s)
    unfold setAutoSyncEnabled
    cases b with
    | true =>
      rw [if_pos rfl]
      exact (startAutoSync_spec { s with enabled := true } h).1
    | false =>
      rw [if_neg (by simp)]
      exact (stopAutoSync_clears { s with enabled := false } h).2.2
  | setInterval m =>
    show SchedInv (setSyncInterval m s)
    unfold setSyncInterval
    by_cases hb : ({ s with intervalMinutes := m } : SchedulerState).enabled = true
    · rw [if_pos hb]
      exact (startAutoSync_spec { s with intervalMinutes := m } h).1
    · rw [if_neg hb]
      exact h
  | setConnected b => exact h

theorem schedInv_runOps (ops : List SchedOp) :
    ∀ (s : SchedulerState), SchedInv s → SchedInv (runSchedOps ops s) := by
  induction ops with
  | nil => intro s h; exact h
  | cons op ops ih =>
    intro s h
    exact ih (applySchedOp op s) (schedInv_applyOp op s h)

theorem schedInv_length_le_one (s : SchedulerState) (h : SchedInv s) :
    s.activeTimers.length ≤ 1 := by
  unfold SchedInv at h
  cases ht : s.autoSyncTimer with
  | none => rw [ht] at h; simp [h]
  | some t =>
    rw [ht] at h
    have := congrArg List.length h
    simp only [List.length_map, List.length_cons, List.length_nil] at this
    omega

/-! ### Claim theorems: scheduler -/

/-- C8: in every scheduler state reachable from a fresh manager, at most one
auto-sync interval timer is live (`startAutoSync` always cancels before
re-creating), and starting the scheduler twice with two different stored
intervals leaves exactly one live timer whose period comes from the latest
interval. -/
theorem scheduler_at_most_one_timer :
    (∀ (ops : List SchedOp),
      (runSchedOps ops initScheduler).activeTimers.length ≤ 1) ∧
    (∀ (s : SchedulerState) (i1 i2 : Nat), SchedInv s →
      s.enabled = true → s.connected = true →
      ∃ t,
        (startAutoSync (withInterval i2 (startAutoSync
          (withInterval i1 s)))).activeTimers = [(t, i2 * 60 * 1000)] ∧
        (startAutoSync (withInterval i2 (startAutoSync
          (withInterval i1 s)))).autoSyncTimer = some t) := by
  constructor
  · intro ops
    refine schedInv_length_le_one _ (schedInv_runOps ops initScheduler ?_)
    show ([] : List (Nat × Nat)) = []
    rfl
  · intro s i1 i2 hinv he hc
    have h1 : SchedInv (withInterval i1 s) := hinv
    have hs1 := startAutoSync_spec (withInterval i1 s) h1
    have h2 : SchedInv (withInterval i2 (startAutoSync (withInterval i1 s))) :=
      hs1.1
    have hpre := startAutoSync_preserves (withInterval i1 s)
    have he1 : (withInterval i2 (startAutoSync (withInterval i1 s))).enabled
        = true := by
      show (startAutoSync (withInterval i1 s)).enabled = true
      rw [hpre.1]
      exact he
    have hc1 : (withInterval i2 (startAutoSync (withInterval i1 s))).connected
        = true := by
      show (startAutoSync (withInterval i1 s)).connected = true
      rw [hpre.2]
      exact hc
    have hres := (startAutoSync_spec _ h2).2 he1 hc1
    refine ⟨(withInterval i2 (startAutoSync (withInterval i1 s))).nextTimerId,
      ?_, hres.2⟩
    have hint : (withInterval i2 (startAutoSync
        (withInterval i1 s))).intervalMinutes = i2 := rfl
    rw [hres.1, hint]

/-- An enabled, connected, timer-free scheduler state used as a concrete
sample input. -/
def enabledIdleScheduler : SchedulerState :=
  { enabled := true, intervalMinutes := 10, connected := true,
    activeTimers := [], autoSyncTimer := none, nextTimerId := 0 }

/-- Witness for C8: from an enabled, connected state with no timer, starting
with interval 5 and then with interval 7 leaves exactly one timer with the
7-minute period. -/
theorem scheduler_at_most_one_timer_witness :
    SchedInv enabledIdleScheduler ∧
    (∃ t,
      (startAutoSync (withInterval 7 (startAutoSync (withInterval 5
        enabledIdleScheduler)))).activeTimers = [(t, 7 * 60 * 1000)] ∧
      (startAutoSync (withInterval 7 (startAutoSync (withInterval 5
        enabledIdleScheduler)))).autoSyncTimer = some t) :=
  ⟨rfl, (scheduler_at_most_one_timer).2 enabledIdleScheduler 5 7 rfl rfl rfl⟩
